import Mathlib

/-!
Verification of the codeowners PR-approval action.

Shallow embedding of the core of `dfinity-lab/codeowners`
(`src/file_under_review.ts` and `src/main.ts`), together with theorems
checking its natural-language specification.

Modelling conventions:
* JS `Set<string>` values are modelled as `List String` in insertion
  order (a JS `Set` iterates in insertion order); `set.has(u)` is
  membership, `set.size === 0` is emptiness of the list.
* JS strings are Lean `String`s; character-level operations work on
  `String.data` (the underlying `List Char`), which agrees with the
  JS index-based operations used by the source.
* The third-party `ignore` library (gitignore pattern matching) is an
  external dependency of the repository, so it is abstracted as a
  parameter `matches : String → String → Bool` taking a pattern and a
  path, mirroring `ignore().add(pattern).ignores(path)`.
-/

namespace Codeowners

/-- The enum `FileApprovalState` from `src/file_under_review.ts`. -/
inductive FileApprovalState where
  | NoOwners
  | Approved
  | Pending
  | Unapprovable
deriving DecidableEq, Repr

/-- The approval-state computation of the `FileUnderReview` constructor
(`src/file_under_review.ts`, lines 18–54).  Arguments follow the
constructor's parameter order (`approvers`, `owners`, `reviewers`,
after `path`).  `new Set([...reviewers].filter(u => owners.has(u)))`
has size 0 exactly when the filtered list is empty, so the set sizes
are modelled by the filtered lists' lengths. -/
def fileApproval (approvers owners reviewers : List String) : FileApprovalState :=
  if owners.length = 0 then
    .NoOwners
  else if (reviewers.filter (fun u => decide (u ∈ owners))).length = 0 then
    .Unapprovable
  else if (approvers.filter (fun u => decide (u ∈ owners))).length > 0 then
    .Approved
  else
    .Pending

/-- The class `FileUnderReview` from `src/file_under_review.ts`: the fields kept on
the object (`path`, `approval`, `approvers`, `owners`). -/
structure FileUnderReview where
  path : String
  approval : FileApprovalState
  approvers : List String
  owners : List String
deriving DecidableEq, Repr

/-- The `FileUnderReview` constructor (`src/file_under_review.ts`,
lines 18–54): stores `path`, `approvers`, `owners` and computes
`approval` from the three sets. -/
def mkFileUnderReview (path : String) (approvers owners reviewers : List String) :
    FileUnderReview :=
  { path := path
    approval := fileApproval approvers owners reviewers
    approvers := approvers
    owners := owners }

/-- The getter `FileUnderReview.ownersString` (`src/file_under_review.ts`,
lines 74–84): ', '-joined owners in insertion order, owners that
appear in `approvers` wrapped in `**`. -/
def FileUnderReview.ownersString (f : FileUnderReview) : String :=
  String.intercalate ", "
    (f.owners.map (fun owner =>
      if owner ∈ f.approvers then "**" ++ owner ++ "**" else owner))

/-- The getter `FileUnderReview.comment` (`src/file_under_review.ts`, lines 57–68). -/
def FileUnderReview.comment (f : FileUnderReview) : String :=
  match f.approval with
  | .NoOwners =>
      "&check; `" ++ f.path ++ "`: File has no owners, no approval required"
  | .Approved => "&check; `" ++ f.path ++ "`: " ++ f.ownersString
  | .Pending => "&cross; `" ++ f.path ++ "`: " ++ f.ownersString
  | .Unapprovable => "&cross; `" ++ f.path ++ "`: " ++ f.ownersString

/-! Ownership table parser (`src/main.ts`, lines 294–303) -/

/-- An entry of the parsed CODEOWNERS table: the `{path, owners}` record of
`src/main.ts` (`type CodeOwners = {path: string; owners: Owner[]}[]`). -/
structure OwnershipRule where
  path : String
  owners : List String
deriving DecidableEq, Repr

/-- JS `content.split('\n')` on the underlying character list: split at every
newline, keeping empty pieces (`"".split('\n')` is `[""]`). -/
def splitOnNl : List Char → List (List Char)
  | [] => [[]]
  | c :: rest =>
    let r := splitOnNl rest
    if c = '\n' then [] :: r
    else
      match r with
      | [] => [[c]]
      | t :: ts => (c :: t) :: ts

/-- JS `line.trim()` on the underlying character list: drop leading and
trailing whitespace. -/
def trimChars (cs : List Char) : List Char :=
  ((cs.dropWhile Char.isWhitespace).reverse.dropWhile Char.isWhitespace).reverse

/-- Maximal whitespace-separated runs of non-whitespace characters,
collected left to right; `acc` holds the (reversed) run being read. -/
def wsTokensAux : List Char → List Char → List (List Char)
  | [], acc => if acc.isEmpty then [] else [acc.reverse]
  | c :: cs, acc =>
    if c.isWhitespace then
      if acc.isEmpty then wsTokensAux cs []
      else acc.reverse :: wsTokensAux cs []
    else wsTokensAux cs (c :: acc)

/-- JS `trimmed.split(/\s+/)` for a trimmed argument (the only way the
source calls it): `"".split(/\s+/)` is `[""]`, and a non-empty trimmed
string splits into its maximal non-whitespace runs. -/
def jsSplitTrimmed (cs : List Char) : List (List Char) :=
  if cs.isEmpty then [[]] else wsTokensAux cs []

/-- The per-line body of `parseCodeOwnersContent` (`src/main.ts`,
lines 298–302): trim, split on whitespace runs, destructure as
`[path, ...owners]`. -/
def lineToRule (line : String) : OwnershipRule :=
  let parts := jsSplitTrimmed (trimChars line.data)
  { path := String.mk (parts.headD []), owners := parts.tail.map (fun cs => String.mk cs) }

/-- The filter of `parseCodeOwnersContent` (`src/main.ts`, line 297):
`line => line && !line.startsWith('#')` — keep a line iff it is non-empty
and its first character is not `'#'`. -/
def keepLine (line : String) : Bool :=
  !line.data.isEmpty && !(line.data.head? == some '#')

/-- The lines of the input that survive the filter, in source order. -/
def keptLines (content : String) : List String :=
  ((splitOnNl content.data).map (fun cs => String.mk cs)).filter keepLine

/-- The function `parseCodeOwnersContent` (`src/main.ts`, lines 294–303). -/
def parseCodeOwnersContent (content : String) : List OwnershipRule :=
  (keptLines content).map lineToRule

/-- Modelled from the spec's words (§4.2), for comparison with the code's
`keepLine`: drop blank (whitespace-only) lines and lines whose first
non-space character is `'#'`. -/
def keepLineClaim (line : String) : Bool :=
  !(trimChars line.data).isEmpty && !((trimChars line.data).head? == some '#')

/-- The parser the spec's words describe, for comparison with
`parseCodeOwnersContent`. -/
def parseClaimModel (content : String) : List OwnershipRule :=
  (((splitOnNl content.data).map (fun cs => String.mk cs)).filter keepLineClaim).map
    lineToRule

/-! Ownership resolver (`src/main.ts`, lines 311–327) -/

/-- JS `user.replace('@', '')` with a string pattern replaces only the
FIRST occurrence: remove the first `'@'` of the character list, wherever
it occurs. -/
def removeFirstAt : List Char → List Char
  | [] => []
  | c :: cs => if c = '@' then cs else c :: removeFirstAt cs

/-- The owner-token cleanup `user => user.replace('@', '')` of
`getFileOwners` (`src/main.ts`, line 326). -/
def stripSigil (user : String) : String :=
  String.mk (removeFirstAt user.data)

/-- The function `getFileOwners` (`src/main.ts`, lines 311–327).  The third-party
`ignore` library is abstracted as `matches pattern filename`, mirroring
`ignore().add(entry.path).ignores(filename)`; `match.owners[0]` on an
empty list is `undefined`, which is not `'@ghost'`, so it is modelled by
`head?`. -/
def getFileOwners (pm : String → String → Bool)
    (codeowners : List OwnershipRule) (filename : String) : List String :=
  match codeowners.reverse.find? (fun entry => pm entry.path filename) with
  | none => []
  | some m =>
    if m.owners.head? == some "@ghost" then []
    else m.owners.map stripSigil

/-- Modelled from the spec's words (C5): strip only a LEADING sigil from a
token, for comparison with the code's `stripSigil`. -/
def stripLeadingSigilClaim (user : String) : String :=
  match user.data with
  | '@' :: rest => String.mk rest
  | _ => user

/-! Comment renderer (`src/main.ts`, lines 221–275) -/

/-- The constant `COMMENT_HEADER` (`src/main.ts`, line 18). -/
def COMMENT_HEADER : String := "<!-- codeowners comment header -->"

/-- The `header` template of `createCommentBody` (`src/main.ts`,
line 222). -/
def header : String := COMMENT_HEADER ++ "\n**Review status**\n\n"

/-- The list `filesUnapprovable` (`src/main.ts`, lines 230–232). -/
def filesUnapprovable (files : List FileUnderReview) : List String :=
  (files.filter (fun file => file.approval == FileApprovalState.Unapprovable)).map
    FileUnderReview.comment

/-- The section `unapprovableComment` (`src/main.ts`, lines 229–238). -/
def unapprovableComment (files : List FileUnderReview) : String :=
  if (filesUnapprovable files).length > 0 then
    "PR can not be approved, as these files can not be approved by the current reviewers:\n\n"
      ++ String.intercalate "\\\n" (filesUnapprovable files) ++ "\n\n"
  else ""

/-- The list `filesPending` (`src/main.ts`, lines 242–244). -/
def filesPending (files : List FileUnderReview) : List String :=
  (files.filter (fun file => file.approval == FileApprovalState.Pending)).map
    FileUnderReview.comment

/-- The section `pendingComment` (`src/main.ts`, lines 241–247). -/
def pendingComment (files : List FileUnderReview) : String :=
  if (filesPending files).length > 0 then
    "Waiting for approval\n\n" ++ String.intercalate "\\\n" (filesPending files) ++ "\n\n"
  else ""

/-- The list `filesApproved` (`src/main.ts`, lines 257–263): the resolved
(`NoOwners` or `Approved`) files. -/
def filesApproved (files : List FileUnderReview) : List String :=
  (files.filter (fun file =>
    file.approval == FileApprovalState.NoOwners ||
      file.approval == FileApprovalState.Approved)).map FileUnderReview.comment

/-- The section `approvedComment` (`src/main.ts`, lines 256–272): the collapsed
`<details>` block, the empty string when there are no resolved files. -/
def approvedComment (files : List FileUnderReview) : String :=
  if (filesApproved files).length > 0 then
    "\n<details>\n  <summary>Approved files</summary>\n    \n"
      ++ String.intercalate "\\\n" (filesApproved files) ++ "\n    \n</details>"
  else ""

/-- The function `createCommentBody` (`src/main.ts`, lines 221–275).  The source
computes the section strings before the all-approved early return; they
are pure, so hoisting them into the defs above is observationally
identical. -/
def createCommentBody (files : List FileUnderReview) : String :=
  if files.length = 0 then header ++ "There are no files in the PR."
  else if (filesUnapprovable files).length = 0 ∧ (filesPending files).length = 0 then
    header ++ "All files in the PR are approved."
  else
    header ++ unapprovableComment files ++ pendingComment files ++ approvedComment files

/-- A concrete file stuck waiting for approval (owner is a reviewer but
has not approved), used to instantiate hypotheses of the renderer
theorems. -/
def pendingFileExample : FileUnderReview :=
  mkFileUnderReview "p" [] ["o"] ["o"]

/-- If `r` matches and nothing after `r` matches, the reversed-order
search of `getFileOwners` finds exactly `r`. -/
theorem find_last_match (pm : String → String → Bool) (filename : String)
    (rules₁ rules₂ : List OwnershipRule) (r : OwnershipRule)
    (hm : pm r.path filename = true)
    (hafter : ∀ r' ∈ rules₂, pm r'.path filename = false) :
    (rules₁ ++ r :: rules₂).reverse.find? (fun e => pm e.path filename) = some r := by
  rw [List.reverse_append]
  have h2 : (r :: rules₂).reverse = rules₂.reverse ++ [r] := by
    simp
  rw [h2, List.append_assoc, List.find?_append]
  have hnone : rules₂.reverse.find? (fun e => pm e.path filename) = none := by
    rw [List.find?_eq_none]
    intro x hx
    simp [hafter x (List.mem_reverse.mp hx)]
  rw [hnone]
  simp only [Option.none_orElse, List.find?_append, List.find?_cons]
  simp [hm]

/-- Membership-based emptiness of the set intersections used by the
classifier. -/
theorem filter_mem_length_eq_zero (l owners : List String) :
    (l.filter (fun u => decide (u ∈ owners))).length = 0 ↔ ∀ u ∈ owners, u ∉ l := by
  rw [List.length_eq_zero, List.filter_eq_nil_iff]
  constructor
  · intro h u hu hul
    have := h u hul
    simp only [decide_eq_true_eq] at this
    exact this hu
  · intro h u hul
    simp only [decide_eq_true_eq]
    intro hu
    exact h u hu hul

/-- Membership-based non-emptiness of the set intersections used by the
classifier. -/
theorem filter_mem_length_pos (l owners : List String) :
    0 < (l.filter (fun u => decide (u ∈ owners))).length ↔ ∃ u ∈ owners, u ∈ l := by
  rw [List.length_pos]
  constructor
  · intro h
    rcases List.exists_mem_of_ne_nil _ h with ⟨u, hu⟩
    have := List.mem_filter.mp hu
    exact ⟨u, by simpa using this.2, this.1⟩
  · rintro ⟨u, hu, hul⟩ hnil
    have := List.filter_eq_nil_iff.mp hnil u hul
    simp [hu] at this

/-- C1: The approval classifier is total and assigns exactly one of the
four states with the source's precedence: `NoOwners` iff the owner set is
empty; `Unapprovable` iff owners is non-empty and disjoint from reviewers
(taking precedence over any existing approval); `Approved` iff owners meets
reviewers and owners meets approvers; `Pending` in the residual case. -/
theorem fileApproval_cases (approvers owners reviewers : List String) :
    (fileApproval approvers owners reviewers = .NoOwners ↔ owners = []) ∧
    (fileApproval approvers owners reviewers = .Unapprovable ↔
      owners ≠ [] ∧ ∀ u ∈ owners, u ∉ reviewers) ∧
    (fileApproval approvers owners reviewers = .Approved ↔
      (∃ u ∈ owners, u ∈ reviewers) ∧ (∃ u ∈ owners, u ∈ approvers)) ∧
    (fileApproval approvers owners reviewers = .Pending ↔
      owners ≠ [] ∧ (∃ u ∈ owners, u ∈ reviewers) ∧ ∀ u ∈ owners, u ∉ approvers) := by
  have hR : (reviewers.filter (fun u => decide (u ∈ owners))).length = 0 ↔
      ∀ u ∈ owners, u ∉ reviewers := by
    rw [List.length_eq_zero, List.filter_eq_nil_iff]
    constructor
    · intro h u hu hur
      have := h u hur
      simp only [decide_eq_true_eq] at this
      exact this hu
    · intro h u hur
      simp only [decide_eq_true_eq]
      intro hu
      exact h u hu hur
  have hA : 0 < (approvers.filter (fun u => decide (u ∈ owners))).length ↔
      ∃ u ∈ owners, u ∈ approvers := by
    rw [List.length_pos]
    constructor
    · intro h
      rcases List.exists_mem_of_ne_nil _ h with ⟨u, hu⟩
      have := List.mem_filter.mp hu
      exact ⟨u, by simpa using this.2, this.1⟩
    · rintro ⟨u, hu, hua⟩ hnil
      have := List.filter_eq_nil_iff.mp hnil u hua
      simp [hu] at this
  unfold fileApproval
  by_cases h0 : owners.length = 0
  · have ho : owners = [] := List.length_eq_zero.mp h0
    subst ho
    simp
  · have hne : owners ≠ [] := fun h => h0 (by simp [h])
    by_cases h1 : (reviewers.filter (fun u => decide (u ∈ owners))).length = 0
    · have hdisj := hR.mp h1
      simp only [if_neg h0, if_pos h1]
      refine ⟨⟨fun h => (nomatch h), fun h => absurd h hne⟩,
        ⟨fun _ => ⟨hne, hdisj⟩, fun _ => trivial⟩, ?_, ?_⟩
      · refine ⟨fun h => (nomatch h), ?_⟩
        rintro ⟨⟨u, hu, hur⟩, -⟩; exact absurd hur (hdisj u hu)
      · refine ⟨fun h => (nomatch h), ?_⟩
        rintro ⟨-, ⟨u, hu, hur⟩, -⟩; exact absurd hur (hdisj u hu)
    · have hex : ∃ u ∈ owners, u ∈ reviewers := by
        have := (not_iff_not.mpr hR).mp h1
        push_neg at this
        exact this
      by_cases h2 : (approvers.filter (fun u => decide (u ∈ owners))).length > 0
      · have happ := hA.mp h2
        simp only [if_neg h0, if_neg h1, if_pos h2]
        refine ⟨⟨fun h => (nomatch h), fun h => absurd h hne⟩, ?_,
          ⟨fun _ => ⟨hex, happ⟩, fun _ => trivial⟩, ?_⟩
        · refine ⟨fun h => (nomatch h), ?_⟩
          rintro ⟨-, hd⟩
          rcases hex with ⟨u, hu, hur⟩; exact absurd hur (hd u hu)
        · refine ⟨fun h => (nomatch h), ?_⟩
          rintro ⟨-, -, hna⟩
          rcases happ with ⟨u, hu, hua⟩; exact absurd hua (hna u hu)
      · have hna : ∀ u ∈ owners, u ∉ approvers := fun u hu hua =>
          h2 (hA.mpr ⟨u, hu, hua⟩)
        simp only [if_neg h0, if_neg h1, if_neg h2]
        refine ⟨⟨fun h => (nomatch h), fun h => absurd h hne⟩, ?_, ?_,
          ⟨fun _ => ⟨hne, hex, hna⟩, fun _ => trivial⟩⟩
        · refine ⟨fun h => (nomatch h), ?_⟩
          rintro ⟨-, hd⟩
          rcases hex with ⟨u, hu, hur⟩; exact absurd hur (hd u hu)
        · refine ⟨fun h => (nomatch h), ?_⟩
          rintro ⟨-, ⟨u, hu, hua⟩⟩; exact absurd hua (hna u hu)

/-- C3 counterexample: The claim says a line whose first non-space
character is `#` is dropped as a comment.  On `" #a b"` (a comment
indented by one space) the code keeps the line and parses it as the rule
`{path := "#a", owners := ["b"]}`, while the claim's parser would drop it
and produce no rules. -/
theorem parse_indented_comment_cx :
    parseCodeOwnersContent " #a b" = [{ path := "#a", owners := ["b"] }] ∧
      parseClaimModel " #a b" = [] := by
  constructor <;> rfl

/-- C3 amended: The parser is total and order-preserving: it splits the
text at newlines, drops empty lines and lines whose first character is `#`
(comment detection happens before trimming), and turns each remaining line,
in source order, into a rule by trimming and splitting on whitespace runs;
an input with `N` kept lines yields exactly `N` rules. -/
theorem parse_total_ordered (content : String) :
    (parseCodeOwnersContent content).length = (keptLines content).length ∧
    ∀ i : Nat, (parseCodeOwnersContent content)[i]? =
      ((keptLines content)[i]?).map lineToRule := by
  refine ⟨List.length_map _ _, fun i => ?_⟩
  simp [parseCodeOwnersContent]

/-- While reading a non-empty run, the first collected token extends the
run already read. -/
theorem wsTokensAux_headD (t : List Char) (acc : List Char) (h : acc ≠ []) :
    ∃ rest, (wsTokensAux t acc).headD [] = acc.reverse ++ rest := by
  induction t generalizing acc with
  | nil =>
    refine ⟨[], ?_⟩
    simp [wsTokensAux, h]
  | cons c cs ih =>
    by_cases hw : c.isWhitespace
    · refine ⟨[], ?_⟩
      simp [wsTokensAux, hw, h]
    · obtain ⟨rest, hrest⟩ := ih (c :: acc) (by simp)
      refine ⟨c :: rest, ?_⟩
      simp only [wsTokensAux, hw, if_neg, Bool.false_eq_true, if_false]
      rw [hrest]
      simp

/-- C9: Comment detection happens before trimming: a line whose first
character is whitespace is never dropped as a comment, even when its first
non-space character is `#`; the parser turns it into a rule whose pattern
begins with `#`. -/
theorem parse_keeps_indented_comment (content line : String) (c : Char)
    (hmem : line ∈ (splitOnNl content.data).map (fun cs => String.mk cs))
    (hc : line.data.head? = some c) (hws : c.isWhitespace = true)
    (hh : (trimChars line.data).head? = some '#') :
    lineToRule line ∈ parseCodeOwnersContent content ∧
      (lineToRule line).path.data.head? = some '#' := by
  have hcn : c ≠ '#' := by
    intro h
    subst h
    exact absurd hws (by decide)
  have hkeep : keepLine line = true := by
    unfold keepLine
    cases hl : line.data with
    | nil => rw [hl] at hc; cases hc
    | cons d rest =>
      rw [hl] at hc
      simp only [List.head?_cons, Option.some.injEq] at hc
      subst hc
      simp [hcn]
  constructor
  · exact List.mem_map_of_mem _ (List.mem_filter.mpr ⟨hmem, hkeep⟩)
  · cases htl : trimChars line.data with
    | nil => rw [htl] at hh; cases hh
    | cons d t =>
      rw [htl] at hh
      simp only [List.head?_cons, Option.some.injEq] at hh
      subst hh
      have hnw : ('#').isWhitespace = false := by decide
      have hsplit : jsSplitTrimmed (trimChars line.data) = wsTokensAux t ['#'] := by
        rw [htl]
        simp [jsSplitTrimmed, wsTokensAux, hnw]
      obtain ⟨rest, hrest⟩ := wsTokensAux_headD t ['#'] (by simp)
      simp only [lineToRule, hsplit]
      rw [hrest]
      simp

/-- C9 witness: The indented comment line of a two-line input becomes a
rule whose pattern begins with the comment character. -/
theorem parse_keeps_indented_comment_witness :
    lineToRule " #a b" ∈ parseCodeOwnersContent "x @u\n #a b" ∧
      (lineToRule " #a b").path.data.head? = some '#' :=
  parse_keeps_indented_comment "x @u\n #a b" " #a b" ' ' (by decide) rfl
    (by decide) rfl

/-- C2: Ownership resolution is last-match-wins: the result for a rule
list is exactly the result for its last matching rule alone — never a
union with, or a substitution of, an earlier matching rule's owners — and
a path matched by no rule resolves to the empty list. -/
theorem getFileOwners_last_match (pm : String → String → Bool) (filename : String) :
    (∀ (rules₁ rules₂ : List OwnershipRule) (r : OwnershipRule),
        pm r.path filename = true →
        (∀ r' ∈ rules₂, pm r'.path filename = false) →
        getFileOwners pm (rules₁ ++ r :: rules₂) filename =
          getFileOwners pm [r] filename) ∧
    (∀ rules : List OwnershipRule,
        (∀ r ∈ rules, pm r.path filename = false) →
        getFileOwners pm rules filename = []) := by
  constructor
  · intro rules₁ rules₂ r hm hafter
    unfold getFileOwners
    rw [find_last_match pm filename rules₁ rules₂ r hm hafter]
    have : ([r] : List OwnershipRule).reverse.find? (fun e => pm e.path filename) =
        some r := by
      simp [List.find?_cons, hm]
    rw [this]
  · intro rules hno
    unfold getFileOwners
    have : rules.reverse.find? (fun e => pm e.path filename) = none := by
      rw [List.find?_eq_none]
      intro x hx
      simp [hno x (List.mem_reverse.mp hx)]
    rw [this]

/-- C2 witness: A concrete matcher and rule list: the second of two
rules with the same pattern decides the result, and an unmatched path
resolves to the empty list. -/
theorem getFileOwners_last_match_witness :
    getFileOwners (fun pat p => pat == p)
        ([{ path := "f", owners := ["@a"] }] ++ { path := "f", owners := ["@b"] } :: [])
        "f" =
      getFileOwners (fun pat p => pat == p) [{ path := "f", owners := ["@b"] }] "f" ∧
    getFileOwners (fun pat p => pat == p) [{ path := "g", owners := ["@a"] }] "f" = [] :=
  ⟨(getFileOwners_last_match (fun pat p => pat == p) "f").1
      [{ path := "f", owners := ["@a"] }] [] { path := "f", owners := ["@b"] }
      (by decide) (by decide),
    (getFileOwners_last_match (fun pat p => pat == p) "f").2
      [{ path := "g", owners := ["@a"] }] (by decide)⟩

/-- C4: If the last matching rule's first owner token is `@ghost`,
resolution returns the empty list, regardless of any trailing tokens. -/
theorem getFileOwners_ghost (pm : String → String → Bool) (filename : String)
    (rules₁ rules₂ : List OwnershipRule) (r : OwnershipRule) (rest : List String)
    (hm : pm r.path filename = true)
    (hafter : ∀ r' ∈ rules₂, pm r'.path filename = false)
    (hg : r.owners = "@ghost" :: rest) :
    getFileOwners pm (rules₁ ++ r :: rules₂) filename = [] := by
  unfold getFileOwners
  rw [find_last_match pm filename rules₁ rules₂ r hm hafter]
  simp [hg]

/-- C4 witness: A ghost rule with a trailing token resolves to no
owners. -/
theorem getFileOwners_ghost_witness :
    getFileOwners (fun _ _ => true)
      ([] ++ { path := "p", owners := ["@ghost", "@x"] } :: []) "f" = [] :=
  getFileOwners_ghost (fun _ _ => true) "f" [] [] _ ["@x"] rfl (by simp) rfl

/-- C5 counterexample: The claim says only a LEADING sigil is removed
from each owner token.  For a matched rule owning `a@b` (no leading sigil),
the code removes the first `@` anyway and returns `ab`, while the claim's
leading-only strip would leave `a@b` unchanged. -/
theorem getFileOwners_sigil_cx :
    getFileOwners (fun _ _ => true) [{ path := "p", owners := ["a@b"] }] "f" = ["ab"] ∧
    stripLeadingSigilClaim "a@b" = "a@b" ∧
    ("ab" : String) ≠ "a@b" := by
  refine ⟨rfl, rfl, by decide⟩

/-- C5 amended: For a matched rule not disavowed by the ghost
sentinel, resolution returns the rule's owner tokens in order, each
transformed only by removing its first `@` character (wherever it occurs),
and nothing else. -/
theorem getFileOwners_strips_first_sigil (pm : String → String → Bool)
    (filename : String) (rules₁ rules₂ : List OwnershipRule) (r : OwnershipRule)
    (hm : pm r.path filename = true)
    (hafter : ∀ r' ∈ rules₂, pm r'.path filename = false)
    (hng : ¬r.owners.head? = some "@ghost") :
    getFileOwners pm (rules₁ ++ r :: rules₂) filename = r.owners.map stripSigil := by
  unfold getFileOwners
  rw [find_last_match pm filename rules₁ rules₂ r hm hafter]
  simp [hng]

/-- C5 witness: A matched rule owning `@a` and `b@c` resolves to
`a` and `bc`. -/
theorem getFileOwners_strips_first_sigil_witness :
    getFileOwners (fun _ _ => true)
        ([] ++ { path := "p", owners := ["@a", "b@c"] } :: []) "f" =
      (["@a", "b@c"] : List String).map stripSigil :=
  getFileOwners_strips_first_sigil (fun _ _ => true) "f" [] [] _ rfl (by simp)
    (by decide)

/-- A non-empty owner set never classifies as `NoOwners`. -/
theorem fileApproval_ne_noOwners (approvers owners reviewers : List String)
    (h : owners ≠ []) : fileApproval approvers owners reviewers ≠ .NoOwners := by
  unfold fileApproval
  rw [if_neg (fun hc => h (List.length_eq_zero.mp hc))]
  intro hA
  split at hA
  · cases hA
  · split at hA
    · cases hA
    · cases hA

/-- C6: Every rendered comment begins with the hidden marker followed
by the `**Review status**` heading, and for the empty file list the output
is exactly the marker, the heading and the fixed "no files" sentence. -/
theorem createCommentBody_marker (files : List FileUnderReview) :
    (∃ rest, createCommentBody files =
      (COMMENT_HEADER ++ "\n**Review status**\n\n") ++ rest) ∧
    createCommentBody [] =
      (COMMENT_HEADER ++ "\n**Review status**\n\n") ++ "There are no files in the PR." := by
  constructor
  · have hh : COMMENT_HEADER ++ "\n**Review status**\n\n" = header := rfl
    rw [hh]
    unfold createCommentBody
    split
    · exact ⟨"There are no files in the PR.", rfl⟩
    · split
      · exact ⟨"All files in the PR are approved.", rfl⟩
      · refine ⟨unapprovableComment files ++ pendingComment files ++ approvedComment files, ?_⟩
        rw [← String.append_assoc, ← String.append_assoc]
  · rfl

/-- C7 counterexample: The claim says every file's line is a glyph,
the path in a code span and the comma-joined owner list.  A file with no
owners renders the fixed no-owners sentence instead of the (empty)
comma-joined owner list the claim prescribes. -/
theorem comment_noOwners_cx :
    (mkFileUnderReview "p" [] [] []).comment =
      "&check; `p`: File has no owners, no approval required" ∧
    (mkFileUnderReview "p" [] [] []).comment ≠ "&check; `p`: " := by
  exact ⟨rfl, by decide⟩

/-- C7 amended: For every file with at least one owner, the rendered
line is a check glyph when the file is `Approved` and a cross glyph
otherwise, then the path in a code span, then the comma-joined owners in
insertion order (never resorted) with owners in the approvers set wrapped
in bold; a file with no owners renders a fixed no-owners sentence instead.
In particular the spec's scenario (owners `foo, bar`, approvers `{foo}`,
reviewers `{foo, bar}`) is `Approved` and renders `foo` bold and `bar`
plain, in that order. -/
theorem comment_line_format (path : String) (approvers owners reviewers : List String)
    (h : owners ≠ []) :
    (mkFileUnderReview path approvers owners reviewers).comment =
      (if (mkFileUnderReview path approvers owners reviewers).approval =
          FileApprovalState.Approved then "&check;" else "&cross;")
        ++ " `" ++ path ++ "`: "
        ++ String.intercalate ", " (owners.map (fun owner =>
            if owner ∈ approvers then "**" ++ owner ++ "**" else owner)) ∧
    (mkFileUnderReview "f" ["foo"] ["foo", "bar"] ["foo", "bar"]).approval =
      FileApprovalState.Approved ∧
    (mkFileUnderReview "f" ["foo"] ["foo", "bar"] ["foo", "bar"]).comment =
      "&check; `f`: **foo**, bar" := by
  refine ⟨?_, rfl, rfl⟩
  have hmk : (mkFileUnderReview path approvers owners reviewers).approval =
      fileApproval approvers owners reviewers := rfl
  cases hA : fileApproval approvers owners reviewers with
  | NoOwners => exact absurd hA (fileApproval_ne_noOwners approvers owners reviewers h)
  | Approved =>
    unfold FileUnderReview.comment FileUnderReview.ownersString mkFileUnderReview
    simp only [hA]
    rfl
  | Pending =>
    unfold FileUnderReview.comment FileUnderReview.ownersString mkFileUnderReview
    simp only [hA]
    rfl
  | Unapprovable =>
    unfold FileUnderReview.comment FileUnderReview.ownersString mkFileUnderReview
    simp only [hA]
    rfl

/-- C7 witness: The amended line format evaluated on the spec's
scenario file. -/
theorem comment_line_format_witness :
    (mkFileUnderReview "q" ["foo"] ["foo", "bar"] ["foo", "bar"]).comment =
      (if (mkFileUnderReview "q" ["foo"] ["foo", "bar"] ["foo", "bar"]).approval =
          FileApprovalState.Approved then "&check;" else "&cross;")
        ++ " `" ++ "q" ++ "`: "
        ++ String.intercalate ", " ((["foo", "bar"] : List String).map (fun owner =>
            if owner ∈ (["foo"] : List String) then "**" ++ owner ++ "**" else owner)) :=
  (comment_line_format "q" ["foo"] ["foo", "bar"] ["foo", "bar"] (by decide)).1

/-- C8: Classifier noninterference: the approval state depends only on
the owner set and its intersections with the approver and reviewer sets;
users outside the owner set may be added to or removed from the approvers
or reviewers without changing the computed state. -/
theorem approval_noninterference (path : String)
    (owners approvers₁ reviewers₁ approvers₂ reviewers₂ : List String)
    (ha : ∀ u ∈ owners, u ∈ approvers₁ ↔ u ∈ approvers₂)
    (hr : ∀ u ∈ owners, u ∈ reviewers₁ ↔ u ∈ reviewers₂) :
    (mkFileUnderReview path approvers₁ owners reviewers₁).approval =
      (mkFileUnderReview path approvers₂ owners reviewers₂).approval := by
  show fileApproval approvers₁ owners reviewers₁ = fileApproval approvers₂ owners reviewers₂
  have e1 : ((reviewers₁.filter (fun u => decide (u ∈ owners))).length = 0) ↔
      ((reviewers₂.filter (fun u => decide (u ∈ owners))).length = 0) := by
    rw [filter_mem_length_eq_zero, filter_mem_length_eq_zero]
    constructor
    · intro hno u hu hm2
      exact hno u hu ((hr u hu).mpr hm2)
    · intro hno u hu hm1
      exact hno u hu ((hr u hu).mp hm1)
  have e2 : (0 < (approvers₁.filter (fun u => decide (u ∈ owners))).length) ↔
      (0 < (approvers₂.filter (fun u => decide (u ∈ owners))).length) := by
    rw [filter_mem_length_pos, filter_mem_length_pos]
    constructor
    · rintro ⟨u, hu, hm⟩
      exact ⟨u, hu, (ha u hu).mp hm⟩
    · rintro ⟨u, hu, hm⟩
      exact ⟨u, hu, (ha u hu).mpr hm⟩
  unfold fileApproval
  simp only [gt_iff_lt, e1, e2]

/-- C8 witness: Adding a non-owner to the approvers and to the
reviewers leaves the state unchanged. -/
theorem approval_noninterference_witness :
    (mkFileUnderReview "p" ["o"] ["o"] ["o"]).approval =
      (mkFileUnderReview "p" ["o", "x"] ["o"] ["o", "y"]).approval :=
  approval_noninterference "p" ["o"] ["o"] ["o"] ["o", "x"] ["o", "y"]
    (by decide) (by decide)

/-- C10: When some file is `Unapprovable` or `Pending` and no file is
`NoOwners` or `Approved`, the collapsed resolved-files section is skipped
entirely: the `<details>` block is the empty string and the body is
exactly the header followed by the unapprovable and pending sections. -/
theorem approvedSection_skipped (files : List FileUnderReview)
    (h1 : ∃ f ∈ files, f.approval = FileApprovalState.Unapprovable ∨
      f.approval = FileApprovalState.Pending)
    (h2 : ∀ f ∈ files, f.approval ≠ FileApprovalState.NoOwners ∧
      f.approval ≠ FileApprovalState.Approved) :
    approvedComment files = "" ∧
    createCommentBody files =
      header ++ unapprovableComment files ++ pendingComment files := by
  have happ : filesApproved files = [] := by
    unfold filesApproved
    rw [List.map_eq_nil_iff, List.filter_eq_nil_iff]
    intro f hf
    have hne := h2 f hf
    simp only [Bool.or_eq_true, beq_iff_eq, not_or]
    exact ⟨hne.1, hne.2⟩
  have hac : approvedComment files = "" := by
    unfold approvedComment
    rw [happ]
    rfl
  refine ⟨hac, ?_⟩
  obtain ⟨f, hf, hst⟩ := h1
  have hlen : ¬files.length = 0 := by
    intro hzero
    rw [List.length_eq_zero] at hzero
    subst hzero
    cases hf
  have hcond : ¬((filesUnapprovable files).length = 0 ∧ (filesPending files).length = 0) := by
    rintro ⟨hu, hp⟩
    cases hst with
    | inl hU =>
      have hb : (f.approval == FileApprovalState.Unapprovable) = true := by simp [hU]
      have hmem : FileUnderReview.comment f ∈ filesUnapprovable files :=
        List.mem_map_of_mem _ (List.mem_filter.mpr ⟨hf, hb⟩)
      rw [List.length_eq_zero.mp hu] at hmem
      cases hmem
    | inr hP =>
      have hb : (f.approval == FileApprovalState.Pending) = true := by simp [hP]
      have hmem : FileUnderReview.comment f ∈ filesPending files :=
        List.mem_map_of_mem _ (List.mem_filter.mpr ⟨hf, hb⟩)
      rw [List.length_eq_zero.mp hp] at hmem
      cases hmem
  unfold createCommentBody
  rw [if_neg hlen, if_neg hcond, hac, String.append_empty]

/-- C10 witness: A single pending file: the body has no `<details>`
section. -/
theorem approvedSection_skipped_witness :
    approvedComment [pendingFileExample] = "" ∧
    createCommentBody [pendingFileExample] =
      header ++ unapprovableComment [pendingFileExample]
        ++ pendingComment [pendingFileExample] :=
  approvedSection_skipped [pendingFileExample]
    ⟨pendingFileExample, by simp, Or.inr (by decide)⟩ (by decide)

end Codeowners
